import Mathlib

/-!
Verification of the `tater` batch coverage driver.

This file gives a shallow embedding, in Lean, of the parts of the program
relevant to its specification: the command-extraction engine
(`src/ci/mod.rs`), the GitHub-Actions matrix resolver and workflow reader
(`src/ci/github.rs`), the per-project run supervisor (`src/runner.rs`) and
the batch orchestrator (`src/main.rs`).  Definitions are translated
directly from the Rust source; theorems then settle the specification's
claims against them.

Scanning functions are written with an explicit fuel argument (always
instantiated with the input length, which every scan strictly decreases)
so that they are structurally recursive and evaluate inside the kernel.
-/

namespace Tater

/-! ## Command extraction engine (`src/ci/mod.rs`)

`extract_tarpaulin_commands` applies two regexes:

* `FIX_LINES = \\\s*\n` (multi-line), replaced by a single space, collapses
  backslash-newline continuations;
* `TEST_CMD = cargo\s+test\s*([\-a-zA-Z\d\\\s\$\x7b\x7d\."~\n])*(;?|\s*~\\\s*\n|&&|$)`
  is matched per line with `find_iter` and every match has the literal
  `"cargo test"` replaced by `"cargo tarpaulin"`.

Because the first alternation branch `;?` always succeeds and the Rust
regex crate uses leftmost-first alternation, the tail is equivalent to an
optional `;`; and because `\s` is included in the character class, the
`\s*` after `test` fuses with the greedy class repetition.  The matcher
below implements exactly that: the literal `cargo`, one or more whitespace
characters, the literal `test`, a maximal run of class characters, then an
optional `;`.
-/

/-- ASCII whitespace as matched by the regex class `\s`. -/
def isWsChar (c : Char) : Bool :=
  c == ' ' || c == '\t' || c == '\n' || c == '\r' || c == '\x0b' || c == '\x0c'

/-- Membership in the `TEST_CMD` character class
`[\-a-zA-Z\d\\\s\$\x7b\x7d\."~\n]`. -/
def isClassChar (c : Char) : Bool :=
  c == '-' || c.isAlpha || c.isDigit || c == '\\' || isWsChar c ||
  c == '$' || c == '\x7b' || c == '\x7d' || c == '.' || c == '\"' || c == '~'

/-- The first literal of the test keyword pair searched for by `TEST_CMD`. -/
def cargoKw : List Char := "cargo".toList

/-- The second literal of the test keyword pair. -/
def testKw : List Char := "test".toList

/-- The exact substring substituted away by the rewrite. -/
def cargoTest : List Char := "cargo test".toList

/-- The replacement written in place of `cargoTest`. -/
def cargoTarpaulin : List Char := "cargo tarpaulin".toList

/-- Length of the `TEST_CMD` match anchored at the head of `s`, if any:
`cargo`, then one or more whitespace characters, then `test`, then a
maximal run of class characters, then an optional `;`. -/
def matchLen (s : List Char) : Option Nat :=
  if cargoKw.isPrefixOf s then
    let r1 := s.drop 5
    let w := r1.takeWhile isWsChar
    if w.length = 0 then none
    else
      let r2 := r1.drop w.length
      if testKw.isPrefixOf r2 then
        let r3 := r2.drop 4
        let body := r3.takeWhile isClassChar
        let r4 := r3.drop body.length
        let tailLen := if r4.head? = some ';' then 1 else 0
        some (5 + w.length + 4 + body.length + tailLen)
      else none
  else none

theorem matchLen_pos {s : List Char} {n : Nat} (h : matchLen s = some n) : 9 ≤ n := by
  simp only [matchLen] at h
  split_ifs at h <;> simp_all <;> omega

/-- Fuel-driven body of `find_iter`: scan left to right, emit each
non-overlapping leftmost match, resume after its end. -/
def findMatchesF : Nat → List Char → List (List Char)
  | 0, _ => []
  | _, [] => []
  | fuel + 1, c :: rest =>
    match matchLen (c :: rest) with
    | some n => (c :: rest).take n :: findMatchesF fuel ((c :: rest).drop n)
    | none => findMatchesF fuel rest

/-- `find_iter` over one line. -/
def findMatches (s : List Char) : List (List Char) :=
  findMatchesF s.length s

/-- Fuel-driven body of `str::replace`: replace every leftmost
non-overlapping occurrence of `"cargo test"` by `"cargo tarpaulin"`. -/
def replaceCargoTestF : Nat → List Char → List Char
  | 0, s => s
  | _, [] => []
  | fuel + 1, c :: rest =>
    if cargoTest.isPrefixOf (c :: rest) then
      cargoTarpaulin ++ replaceCargoTestF fuel ((c :: rest).drop 10)
    else c :: replaceCargoTestF fuel rest

/-- `m.as_str().replace("cargo test", "cargo tarpaulin")`. -/
def replaceCargoTest (s : List Char) : List Char :=
  replaceCargoTestF s.length s

/-- Index of the last `'\n'` in a list, if any. -/
def lastNlIdx : List Char → Option Nat
  | [] => none
  | c :: rest =>
    match lastNlIdx rest with
    | some i => some (i + 1)
    | none => if c = '\n' then some 0 else none

/-- Fuel-driven body of `FIX_LINES.replace_all(input, " ")`: each
backslash followed by a whitespace run containing a newline is folded,
together with that run up to its last newline, into a single space. -/
def fixLinesF : Nat → List Char → List Char
  | 0, s => s
  | _, [] => []
  | fuel + 1, c :: rest =>
    if c = '\\' then
      match lastNlIdx (rest.takeWhile isWsChar) with
      | some p => ' ' :: fixLinesF fuel (rest.drop (p + 1))
      | none => c :: fixLinesF fuel rest
    else c :: fixLinesF fuel rest

/-- Collapse backslash-newline continuations into single spaces. -/
def fixLines (s : List Char) : List Char :=
  fixLinesF s.length s

/-- Split at every `'\n'`, keeping empty pieces (`k` newlines produce
`k + 1` pieces). -/
def splitNl : List Char → List (List Char)
  | [] => [[]]
  | c :: rest =>
    if c = '\n' then [] :: splitNl rest
    else
      match splitNl rest with
      | h :: t => (c :: h) :: t
      | [] => [[c]]

/-- Strip one trailing carriage return, as `str::lines` does. -/
def dropFinalCr (l : List Char) : List Char :=
  if l.getLast? = some '\r' then l.dropLast else l

/-- Rust `str::lines`: split on `'\n'`, drop the final empty piece
produced by a trailing newline, strip one `'\r'` from each line. -/
def rustLines (s : List Char) : List (List Char) :=
  if s = [] then []
  else
    let parts := splitNl s
    (if parts.getLast? = some [] then parts.dropLast else parts).map dropFinalCr

/-- `extract_tarpaulin_commands`: collapse continuations, then per line
collect every `TEST_CMD` match with `"cargo test"` rewritten to
`"cargo tarpaulin"`, in line order. -/
def extractTarpaulinCommands (input : List Char) : List (List Char) :=
  ((rustLines (fixLines input)).map
    (fun line => (findMatches line).map replaceCargoTest)).flatten

/-- `extract_tarpaulin_commands` at `String` type. -/
def extractStr (s : String) : List String :=
  (extractTarpaulinCommands s.toList).map (fun l => String.mk l)

/-! ## `try_to_populate_command` (`src/ci/mod.rs`)

Gated on `data.contains("cargo test")` (the exact single-space literal);
when the gate passes, the first extracted command is tokenized by
`split_whitespace`, its first two tokens are skipped, and the remainder is
appended to the command being built.  When extraction yields more than one
command the extras are logged and ignored; when it yields none, nothing is
appended but the function still returns `true`.
-/

/-- Rust `str::contains` for a fixed needle. -/
def containsSeq (needle : List Char) : List Char → Bool
  | [] => needle.isEmpty
  | c :: rest => needle.isPrefixOf (c :: rest) || containsSeq needle rest

/-- Fuel-driven body of `split_whitespace`. -/
def wordsOfF : Nat → List Char → List (List Char)
  | 0, _ => []
  | _, [] => []
  | fuel + 1, c :: rest =>
    if isWsChar c then wordsOfF fuel rest
    else
      ((c :: rest).takeWhile (fun x => !isWsChar x)) ::
        wordsOfF fuel ((c :: rest).dropWhile (fun x => !isWsChar x))

/-- Rust `str::split_whitespace`. -/
def wordsOf (s : List Char) : List (List Char) :=
  wordsOfF s.length s

/-- `try_to_populate_command`: the command under construction is modelled
by its argument list; the returned pair is (return value, arguments after
the call). -/
def tryToPopulateCommand (data : List Char) (cmd : List (List Char)) :
    Bool × List (List Char) :=
  if containsSeq cargoTest data then
    match extractTarpaulinCommands data with
    | [] => (true, cmd)
    | c :: _ => (true, cmd ++ (wordsOf c).drop 2)
  else (false, cmd)

/-! ## GitHub-Actions matrix resolver (`src/ci/github.rs`)

`serde_yaml::Value` is modelled by `YamlVal`; `HashMap`s are modelled by
association lists (the source iterates them in unspecified order, so any
fixed order is a faithful instance).  `Job::get_possible_matrix_values`
splits the dotted reference, requires at least two segments rooted at
`matrix`, returns the direct axis declaration when present, otherwise
scans the include entries when there are any, and otherwise returns
`None`.
-/

/-- Minimal model of `serde_yaml::Value`. -/
inductive YamlVal
  | str (s : List Char)
  | num (n : Int)
  | bool (b : Bool)
  | seq (l : List YamlVal)
  | map (entries : List (YamlVal × YamlVal))
  | null

/-- `Value::as_str`. -/
def YamlVal.asStr : YamlVal → Option (List Char)
  | .str s => some s
  | _ => none

/-- `Value::as_sequence`. -/
def YamlVal.asSequence : YamlVal → Option (List YamlVal)
  | .seq l => some l
  | _ => none

/-- `Value::as_mapping`. -/
def YamlVal.asMapping : YamlVal → Option (List (YamlVal × YamlVal))
  | .map entries => some entries
  | _ => none

/-- The `strategy.matrix` table: directly declared axes plus include
entries. -/
structure GhaMatrix where
  elements : List (List Char × List YamlVal)
  includeList : List YamlVal

/-- A resolved matrix value: candidate data plus preconditions. -/
structure MatrixValue where
  data : List YamlVal
  preconditions : List (List Char × YamlVal)

/-- `HashMap` lookup on an association list. -/
def alookup {α : Type} (k : List Char) : List (List Char × α) → Option α
  | [] => none
  | (k', v) :: t => if k' = k then some v else alookup k t

/-- `HashMap::insert` on an association list: replace the binding if the
key is present, otherwise add it. -/
def insertA (k : List Char) (v : YamlVal) :
    List (List Char × YamlVal) → List (List Char × YamlVal)
  | [] => [(k, v)]
  | (k', v') :: t => if k' = k then (k, v) :: t else (k', v') :: insertA k v t

/-- One step of the include-entry scan: the axis key sets the candidate
value (a sequence kept as is, anything else promoted to a singleton);
any other string key becomes a precondition; non-string keys are logged
and dropped. -/
def entryStep (axis : List Char)
    (st : Option (List YamlVal) × List (List Char × YamlVal))
    (kv : YamlVal × YamlVal) :
    Option (List YamlVal) × List (List Char × YamlVal) :=
  if kv.1.asStr = some axis then
    (some (match kv.2.asSequence with
            | some s => s
            | none => [kv.2]), st.2)
  else
    match kv.1.asStr with
    | some s => (st.1, insertA s kv.2 st.2)
    | none => st

/-- Process one include entry: a `MatrixValue` if the entry contains the
axis key, nothing otherwise. -/
def entryMatrixValue (axis : List Char) (mapping : List (YamlVal × YamlVal)) :
    Option MatrixValue :=
  let st := mapping.foldl (entryStep axis) (none, [])
  st.1.map (fun data => ⟨data, st.2⟩)

/-- Split at every occurrence of `sep`, keeping empty pieces, as Rust
`str::split` does. -/
def splitOnChar (sep : Char) : List Char → List (List Char)
  | [] => [[]]
  | c :: rest =>
    if c = sep then [] :: splitOnChar sep rest
    else
      match splitOnChar sep rest with
      | h :: t => (c :: h) :: t
      | [] => [[c]]

/-- A workflow step: the action reference, parameter mapping, and inline
script text that `read_workflow` consults. -/
structure Step where
  uses : List Char
  withParams : List (List Char × YamlVal)
  run : List Char

/-- A job, reduced to the fields `get_possible_matrix_values` and
`read_workflow` consult. -/
structure Job where
  steps : List Step
  matrix : GhaMatrix

/-- `Job::get_possible_matrix_values`. -/
def Job.getPossibleMatrixValues (j : Job) (var : List Char) :
    Option (List MatrixValue) :=
  let parts := splitOnChar '.' var
  if parts.length < 2 ∨ parts.headI ≠ "matrix".toList then none
  else
    let axis := parts.getD 1 []
    match alookup axis j.matrix.elements with
    | some data => some [⟨data, []⟩]
    | none =>
      if j.matrix.includeList.isEmpty then none
      else
        some (j.matrix.includeList.filterMap
          (fun v => v.asMapping.bind (entryMatrixValue axis)))

/-! ## `read_workflow` job scan (`src/ci/github.rs`)

For each job, in order: a step whose `uses` starts with
`actions-rs/tarpaulin` leads to a spawn with the translated parameter
table; otherwise a step whose `uses` starts with `actions-rs/cargo` and
whose `command` parameter is `test` leads to a spawn with the default
working directory and the tokenized `args` parameter; otherwise the job's
steps containing `cargo test` in their inline script are fed through
`extract_tarpaulin_commands`, but the extracted commands are only logged
— the scan moves to the next job and, with no job spawning, the function
returns the not-found error.
-/

/-- `process_arg_string` token loop with its skip flag: drop `--color`
and the token after it, keep everything else. -/
def processArgStringAux : List (List Char) → Bool → List (List Char)
  | [], _ => []
  | w :: rest, skipNext =>
    if skipNext then processArgStringAux rest false
    else if w = "--color".toList then processArgStringAux rest true
    else w :: processArgStringAux rest false

/-- `process_arg_string`: whitespace-tokenize and filter the colour flag. -/
def processArgString (s : List Char) : List (List Char) :=
  processArgStringAux (wordsOf s) false

/-- Translation table for `actions-rs/tarpaulin` parameters, applied to
each string-valued `with` entry in mapping order: `run-types` becomes the
repeatable flag, `timeout` a flag and value, `out-type` the output flag
with its value fixed, `args`/`version` are tokenized via
`process_arg_string`, and unrecognized keys are logged and dropped. -/
def tarpaulinArgs (params : List (List Char × YamlVal)) : List (List Char) :=
  params.foldl
    (fun acc kv =>
      match kv.2.asStr with
      | none => acc
      | some s =>
        if kv.1 = "run-types".toList then acc ++ ["--run-types".toList] ++ wordsOf s
        else if kv.1 = "timeout".toList then acc ++ ["--timeout".toList, s]
        else if kv.1 = "out-type".toList then acc ++ ["--out".toList]
        else if kv.1 = "args".toList ∨ kv.1 = "version".toList then
          acc ++ processArgString s
        else acc)
    []

/-- Result of `read_workflow`: a spawned command (extra arguments beyond
the base invocation, and a working-directory override), or the not-found
error. -/
inductive WorkflowResult
  | spawned (extraArgs : List (List Char)) (workdir : Option (List Char))
  | notFound

/-- The `read_workflow` scan over the parsed jobs, given the workflow's
default working directory. -/
def readWorkflowJobs (defaultWd : Option (List Char)) : List Job → WorkflowResult
  | [] => .notFound
  | j :: rest =>
    match j.steps.find? (fun st => "actions-rs/tarpaulin".toList.isPrefixOf st.uses) with
    | some st => .spawned (tarpaulinArgs st.withParams) none
    | none =>
      match j.steps.find? (fun st => "actions-rs/cargo".toList.isPrefixOf st.uses) with
      | some st =>
        if (alookup "command".toList st.withParams).bind YamlVal.asStr
            = some "test".toList then
          .spawned
            (match (alookup "args".toList st.withParams).bind YamlVal.asStr with
              | some s => processArgString s
              | none => []) defaultWd
        else readWorkflowJobs defaultWd rest
      | none => readWorkflowJobs defaultWd rest

/-! ## Process supervisor (`src/runner.rs`)

`run_test` clones (or reuses) the project, runs an optional setup snippet,
spawns the coverage process — `.expect("Unable to spawn process")`, a
panic on spawn failure — and enters a poll loop: sleep 10 s, `try_wait`;
on `Ok(Some(status))` break with the status; on `Ok(None)` sample CPU when
the process is visible, incrementing a stall counter when the sample is
below `0.1` and resetting it to zero otherwise, and kill with a `Stalled`
error once the counter exceeds `5`; on `Err` return a `Tarpaulin` error.
After the loop, teardown and finalization run; a missing coverage artifact
is only warned about, and the outcome is `Ok` exactly when the exit status
is a success.
-/

/-- One poll-loop observation: the process has exited with a status, is
still alive (with the CPU sample for its pid, when the system table knows
it), or `try_wait` failed. -/
inductive PollEvent
  | exited (success : Bool)
  | alive (cpu : Option ℚ)
  | waitErr

/-- How the wait loop ends. `hung` models a run whose observation list is
exhausted with the process still alive — the real loop would keep
sleeping. -/
inductive WaitOutcome
  | exitStatus (success : Bool)
  | killedStalled
  | waitFailed
  | hung
deriving DecidableEq

/-- The near-zero CPU threshold of the stall heuristic. -/
def stallThreshold : ℚ := 1 / 10

/-- The `run_test` wait loop, carrying the `time_doing_nothing` counter. -/
def waitLoop : List PollEvent → Nat → WaitOutcome
  | [], _ => .hung
  | .exited s :: _, _ => .exitStatus s
  | .waitErr :: _, _ => .waitFailed
  | .alive none :: rest, n => waitLoop rest n
  | .alive (some c) :: rest, n =>
    let n' := if c < stallThreshold then n + 1 else 0
    if 5 < n' then .killedStalled else waitLoop rest n'

/-- `RunError` (`src/runner.rs`), payload messages elided. -/
inductive RunError
  | git
  | setup
  | tarpaulin
  | stalled
  | failed
deriving DecidableEq

/-- The environment a `run_test` call observes: whether a `.git` marker
already exists, whether the clone succeeds, whether a setup snippet is
declared and launches, whether spawning the coverage process succeeds,
the poll-loop observations, and whether finalization locates the coverage
artifact. -/
structure RunEnv where
  alreadyCloned : Bool
  cloneOk : Bool
  hasSetup : Bool
  setupLaunchOk : Bool
  spawnOk : Bool
  events : List PollEvent
  foundLog : Bool

instance : DecidableEq (Except RunError Unit) := fun a b =>
  match a, b with
  | .ok (), .ok () => isTrue rfl
  | .error x, .error y =>
    match decEq x y with
    | isTrue h => isTrue (by rw [h])
    | isFalse h => isFalse (fun hh => h (by injection hh))
  | .ok (), .error _ => isFalse (fun hh => Except.noConfusion hh)
  | .error _, .ok () => isFalse (fun hh => Except.noConfusion hh)

/-- Result of a `run_test` call, distinguishing a panic (which unwinds
out of the supervisor) from a returned per-project outcome. -/
inductive RunOutcome
  | panicked (msg : String)
  | hung
  | done (r : Except RunError Unit)
deriving DecidableEq

/-- `run_test`: clone or reuse, setup, spawn (a panic when the spawn
fails), wait loop, then the exit-status check; the located-artifact flag
is only ever warned about and never consulted for the outcome. -/
def runTest (env : RunEnv) : RunOutcome :=
  if !env.alreadyCloned && !env.cloneOk then .done (.error .git)
  else if env.hasSetup && !env.setupLaunchOk then .done (.error .setup)
  else if !env.spawnOk then .panicked "Unable to spawn process"
  else
    match waitLoop env.events 0 with
    | .hung => .hung
    | .waitFailed => .done (.error .tarpaulin)
    | .killedStalled => .done (.error .stalled)
    | .exitStatus s => if s then .done (.ok ()) else .done (.error .failed)

/-! ## Batch orchestrator (`src/main.rs`)

`run_tater` iterates `context.crates.iter().enumerate().skip(start_from)`.
Per project: clone or reuse, an interruption check persisting the current
index, a directory-existence check, the coverage run, the
`tarp.status.success() && found_log` pass decision (pass ledger and
`i + 1` on pass; failure counter and `i` otherwise), a second interruption
check persisting the exit index and appending the project to the fail
ledger, and otherwise a fail-ledger append whenever the project did not
pass.  `get_status_linewriter` truncates the ledger file when the resume
index is `0` and opens it in append mode otherwise.
-/

/-- What the orchestrator observes about one project: whether its
directory exists after the clone step, the coverage process's exit
status, whether the artifact was found, and the two interruption-check
results. -/
structure ProjInfo where
  dirExists : Bool
  exitSuccess : Bool
  foundLog : Bool
  interrupt1 : Bool
  interrupt2 : Bool

/-- Batch state: ledger file contents (projects recorded by index), the
persisted progress index, the failure counter, and the indices the loop
body has visited. -/
structure TaterState where
  passLedger : List Nat
  failLedger : List Nat
  progress : Option Nat
  failures : Nat
  processed : List Nat
deriving DecidableEq

/-- One `run_tater` loop body: `inl` stops the batch (an interruption was
observed and the progress index persisted), `inr` continues with the next
project.  In order: the first interruption check persisting `i`, the
directory-existence check, the `exit status && found_log` pass decision
(pass ledger and `i + 1`, or failure counter and `i`), the second
interruption check persisting the exit index and appending to the fail
ledger, and the fail-ledger append for a non-passing project. -/
def taterStep (i : Nat) (p : ProjInfo) (st0 : TaterState) : TaterState ⊕ TaterState :=
  let st := { st0 with processed := st0.processed ++ [i] }
  if p.interrupt1 then .inl { st with progress := some i }
  else if !p.dirExists then .inr st
  else
    let pass := p.exitSuccess && p.foundLog
    let st :=
      if pass then { st with passLedger := st.passLedger ++ [i] }
      else { st with failures := st.failures + 1 }
    let exitIndex := if pass then i + 1 else i
    if p.interrupt2 then
      .inl { st with progress := some exitIndex, failLedger := st.failLedger ++ [i] }
    else if !pass then .inr { st with failLedger := st.failLedger ++ [i] }
    else .inr st

/-- The `run_tater` per-project loop. -/
def taterLoop : List (Nat × ProjInfo) → TaterState → TaterState
  | [], st => st
  | (i, p) :: rest, st =>
    match taterStep i p st with
    | .inl stop => stop
    | .inr cont => taterLoop rest cont

/-- `get_status_linewriter` at the level of ledger-file contents: a
resume index of `0` truncates, anything else appends to what is already
there. -/
def statusLedgerInit (existing : List Nat) (startIter : Nat) : List Nat :=
  if startIter = 0 then [] else existing

/-- `run_tater`: open the ledgers according to the resume index and drive
the loop over the enumerated project list from that index on. -/
def runTater (projs : List ProjInfo) (startFrom : Nat)
    (existingPass existingFail : List Nat) : TaterState :=
  taterLoop ((projs.enum).drop startFrom)
    { passLedger := statusLedgerInit existingPass startFrom
      failLedger := statusLedgerInit existingFail startFrom
      progress := none
      failures := 0
      processed := [] }

/-! ## Claim C8: extraction engine behavior on the reference inputs -/

/-- C8: the bare test command extracts to exactly the rewritten coverage
command; trailing flags are preserved; a trailing `;` is included in the
match and the text after it excluded; a backslash-newline continuation
folds the wrapped command into one match; a bare newline ends the match;
and matches come back in line order. -/
theorem c8_extraction_behavior :
    extractStr "cargo test" = ["cargo tarpaulin"] ∧
    extractStr "cargo test --all-features" = ["cargo tarpaulin --all-features"] ∧
    extractStr "cargo test ; -- --skip \"this\"" = ["cargo tarpaulin ;"] ∧
    extractStr "cargo test \\ \n -- hello" = ["cargo tarpaulin   -- hello"] ∧
    extractStr "cargo test\n -- hello" = ["cargo tarpaulin"] ∧
    extractStr "cargo test\ncargo test --foo" =
      ["cargo tarpaulin", "cargo tarpaulin --foo"] := by
  refine ⟨by decide, by decide, by decide, by decide, by decide, by decide⟩

/-! ## Claim C9: re-extraction of rewritten output -/

/-- C9 counterexample: on `"cargo  test"` (two spaces) the regex matches
but the single-space substitution does not fire, so the extracted command
is the unchanged input and re-running extraction on that output matches
again instead of yielding the empty list. -/
theorem c9_rewrite_not_idempotent_cx :
    extractStr "cargo  test" = ["cargo  test"] ∧
    extractStr "cargo  test" ≠ [] := by
  refine ⟨by decide, by decide⟩

/-- Does `s` start with `cargo`, one or more whitespace characters, then
`test` — i.e. is a `TEST_CMD` keyword occurrence anchored here? -/
def startsCargoWsTest (s : List Char) : Bool :=
  cargoKw.isPrefixOf s &&
    (let r := s.drop 5
     let w := r.takeWhile isWsChar
     !w.isEmpty && testKw.isPrefixOf (r.drop w.length))

/-- Does any position of `s` carry a `TEST_CMD` keyword occurrence? -/
def hasCargoWsTest : List Char → Bool
  | [] => false
  | c :: rest => startsCargoWsTest (c :: rest) || hasCargoWsTest rest

/-! ## Claim C10: the `contains("cargo test")` gate -/

/-- C10: `try_to_populate_command` answers exactly the single-space
containment test, leaves the command untouched whenever it answers
`false`, and in particular rejects `"cargo  test"` even though the
extraction regex itself matches that text. -/
theorem c10_populate_gate :
    (∀ (data : List Char) (cmd : List (List Char)),
        (tryToPopulateCommand data cmd).1 = containsSeq cargoTest data) ∧
    (∀ (data : List Char) (cmd : List (List Char)),
        containsSeq cargoTest data = false →
        tryToPopulateCommand data cmd = (false, cmd)) ∧
    (∀ cmd : List (List Char),
        tryToPopulateCommand "cargo  test".toList cmd = (false, cmd)) ∧
    extractTarpaulinCommands "cargo  test".toList ≠ [] := by
  refine ⟨?_, ?_, ?_, by decide⟩
  · intro data cmd
    unfold tryToPopulateCommand
    split
    · next h =>
      cases extractTarpaulinCommands data <;> simp [h]
    · next h => simp at h; simp [h]
  · intro data cmd h
    unfold tryToPopulateCommand
    rw [h]
    simp
  · intro cmd
    have h : containsSeq cargoTest "cargo  test".toList = false := by decide
    unfold tryToPopulateCommand
    rw [h]
    simp

/-- Witness for C10 at a concrete input. -/
theorem c10_populate_gate_witness :
    containsSeq cargoTest "echo hi".toList = false ∧
    tryToPopulateCommand "echo hi".toList [] = (false, []) := by
  refine ⟨by decide, c10_populate_gate.2.1 "echo hi".toList [] (by decide)⟩

/-! ## Wait-loop lemmas shared by the supervisor claims -/

theorem waitLoop_idle_step {c : ℚ} {rest : List PollEvent} {n : Nat}
    (hc : c < stallThreshold) (hn : n + 1 ≤ 5) :
    waitLoop (.alive (some c) :: rest) n = waitLoop rest (n + 1) := by
  have h5 : ¬ 5 < n + 1 := by omega
  simp [waitLoop, hc, h5]

theorem waitLoop_busy_step {c : ℚ} {rest : List PollEvent} {n : Nat}
    (hc : stallThreshold ≤ c) :
    waitLoop (.alive (some c) :: rest) n = waitLoop rest 0 := by
  have hc' : ¬ c < stallThreshold := not_lt.mpr hc
  simp [waitLoop, hc']

theorem waitLoop_idle_kill {c : ℚ} {rest : List PollEvent} {n : Nat}
    (hc : c < stallThreshold) (hn : 5 ≤ n) :
    waitLoop (.alive (some c) :: rest) n = .killedStalled := by
  have h5 : 5 < n + 1 := by omega
  simp [waitLoop, hc, h5]

theorem waitLoop_idle_run_kills {c : ℚ} (hc : c < stallThreshold) :
    ∀ (k n : Nat) (rest : List PollEvent), 1 ≤ k → 5 < n + k →
      waitLoop (List.replicate k (.alive (some c)) ++ rest) n = .killedStalled := by
  intro k
  induction k with
  | zero => intro n rest h1 _; omega
  | succ k ih =>
    intro n rest _ hk
    rw [List.replicate_succ, List.cons_append]
    by_cases hn : 5 ≤ n
    · exact waitLoop_idle_kill hc hn
    · rw [waitLoop_idle_step hc (by omega)]
      exact ih (n + 1) rest (by omega) (by omega)

theorem waitLoop_idle_then_exit {c : ℚ} (hc : c < stallThreshold) :
    ∀ (k n : Nat) (s : Bool), n + k ≤ 5 →
      waitLoop (List.replicate k (.alive (some c)) ++ [.exited s]) n = .exitStatus s := by
  intro k
  induction k with
  | zero => intro n s _; simp [waitLoop]
  | succ k ih =>
    intro n s hk
    rw [List.replicate_succ, List.cons_append]
    rw [waitLoop_idle_step hc (by omega)]
    exact ih (n + 1) s (by omega)

/-- Under passing clone/setup/spawn guards, `run_test` is the wait loop's
verdict. -/
theorem runTest_wait (env : RunEnv)
    (h1 : (!env.alreadyCloned && !env.cloneOk) = false)
    (h2 : (env.hasSetup && !env.setupLaunchOk) = false)
    (h3 : env.spawnOk = true) :
    runTest env =
      match waitLoop env.events 0 with
      | .hung => .hung
      | .waitFailed => .done (.error .tarpaulin)
      | .killedStalled => .done (.error .stalled)
      | .exitStatus s => if s then .done (.ok ()) else .done (.error .failed) := by
  simp [runTest, h1, h2, h3]

/-! ## Claim C2: the stall heuristic -/

/-- C2 counterexample: a process sampled idle (CPU `0`, below the
threshold) for exactly 5 consecutive intervals and then observed to exit
successfully reports its real exit status — the kill fires only when the
counter exceeds 5, i.e. from the sixth consecutive idle sample on. -/
theorem c2_stall_at_least_five_cx :
    (0 : ℚ) < stallThreshold ∧
    runTest
      { alreadyCloned := true, cloneOk := true, hasSetup := false
        setupLaunchOk := true, spawnOk := true
        events := List.replicate 5 (.alive (some 0)) ++ [.exited true]
        foundLog := true } = .done (.ok ()) := by
  refine ⟨by norm_num [stallThreshold], ?_⟩
  rw [runTest_wait _ (by rfl) (by rfl) (by rfl)]
  rw [waitLoop_idle_then_exit (by norm_num [stallThreshold]) 5 0 true (by omega)]
  rfl

/-- C2 amended: an idle sample (below the threshold) increments the stall
counter, a busy sample resets it to zero; a process still alive through
six (not five) consecutive idle samples is killed and the run reports
`Stalled`; a process exiting after at most two consecutive idle samples
reports its real exit status. -/
theorem c2_stall_counter :
    (∀ (c : ℚ) (rest : List PollEvent) (n : Nat),
        c < stallThreshold → n + 1 ≤ 5 →
        waitLoop (.alive (some c) :: rest) n = waitLoop rest (n + 1)) ∧
    (∀ (c : ℚ) (rest : List PollEvent) (n : Nat),
        stallThreshold ≤ c →
        waitLoop (.alive (some c) :: rest) n = waitLoop rest 0) ∧
    (∀ (env : RunEnv) (c : ℚ) (tail : List PollEvent),
        (!env.alreadyCloned && !env.cloneOk) = false →
        (env.hasSetup && !env.setupLaunchOk) = false →
        env.spawnOk = true →
        c < stallThreshold →
        env.events = List.replicate 6 (.alive (some c)) ++ tail →
        runTest env = .done (.error .stalled)) ∧
    (∀ (env : RunEnv) (k : Nat) (c : ℚ) (s : Bool),
        (!env.alreadyCloned && !env.cloneOk) = false →
        (env.hasSetup && !env.setupLaunchOk) = false →
        env.spawnOk = true →
        k ≤ 2 → c < stallThreshold →
        env.events = List.replicate k (.alive (some c)) ++ [.exited s] →
        runTest env = if s then .done (.ok ()) else .done (.error .failed)) := by
  refine ⟨fun c rest n hc hn => waitLoop_idle_step hc hn,
         fun c rest n hc => waitLoop_busy_step hc, ?_, ?_⟩
  · intro env c tail h1 h2 h3 hc hev
    rw [runTest_wait env h1 h2 h3, hev,
      waitLoop_idle_run_kills hc 6 0 tail (by omega) (by omega)]
  · intro env k c s h1 h2 h3 hk hc hev
    rw [runTest_wait env h1 h2 h3, hev,
      waitLoop_idle_then_exit hc k 0 s (by omega)]

/-- Witness for C2 at concrete inputs. -/
theorem c2_stall_counter_witness :
    waitLoop [.alive (some 0), .exited true] 0 = waitLoop [.exited true] 1 ∧
    waitLoop [.alive (some 1), .exited true] 3 = waitLoop [.exited true] 0 ∧
    runTest
      { alreadyCloned := true, cloneOk := true, hasSetup := false
        setupLaunchOk := true, spawnOk := true
        events := List.replicate 6 (.alive (some 0)) ++ [.exited true]
        foundLog := true } = .done (.error .stalled) ∧
    runTest
      { alreadyCloned := true, cloneOk := true, hasSetup := false
        setupLaunchOk := true, spawnOk := true
        events := List.replicate 2 (.alive (some 0)) ++ [.exited false]
        foundLog := true } = .done (.error .failed) := by
  refine ⟨c2_stall_counter.1 0 [.exited true] 0 (by norm_num [stallThreshold]) (by omega),
         c2_stall_counter.2.1 1 [.exited true] 3 (by norm_num [stallThreshold]), ?_, ?_⟩
  · exact c2_stall_counter.2.2.1
      { alreadyCloned := true, cloneOk := true, hasSetup := false
        setupLaunchOk := true, spawnOk := true
        events := List.replicate 6 (.alive (some 0)) ++ [.exited true]
        foundLog := true } 0 [.exited true] (by rfl) (by rfl) (by rfl)
      (by norm_num [stallThreshold]) (by rfl)
  · have := c2_stall_counter.2.2.2
      { alreadyCloned := true, cloneOk := true, hasSetup := false
        setupLaunchOk := true, spawnOk := true
        events := List.replicate 2 (.alive (some 0)) ++ [.exited false]
        foundLog := true } 2 0 false (by rfl) (by rfl) (by rfl)
      (by omega) (by norm_num [stallThreshold]) (by rfl)
    simpa using this

/-! ## Claim C3: failure containment at the supervisor boundary -/

/-- C3 counterexample: a failure to spawn the coverage process hits
`.expect("Unable to spawn process")` and panics out of `run_test` instead
of becoming a per-project outcome. -/
theorem c3_spawn_failure_panics_cx :
    runTest
      { alreadyCloned := true, cloneOk := true, hasSetup := false
        setupLaunchOk := true, spawnOk := false, events := [], foundLog := true }
      = .panicked "Unable to spawn process" := by rfl

/-- C3 amended: every per-project failure other than a spawn failure —
clone failure, setup launch failure, wait failure, stall, exit failure —
is converted into a per-project `RunError` outcome and never panics; only
a spawn failure unwinds. -/
theorem c3_failure_containment :
    (∀ env : RunEnv, env.spawnOk = true → ∀ m, runTest env ≠ .panicked m) ∧
    (∀ env : RunEnv, env.alreadyCloned = false → env.cloneOk = false →
        runTest env = .done (.error .git)) ∧
    (∀ env : RunEnv, (!env.alreadyCloned && !env.cloneOk) = false →
        env.hasSetup = true → env.setupLaunchOk = false →
        runTest env = .done (.error .setup)) ∧
    (∀ env : RunEnv,
        (!env.alreadyCloned && !env.cloneOk) = false →
        (env.hasSetup && !env.setupLaunchOk) = false →
        env.spawnOk = true →
        waitLoop env.events 0 = .waitFailed →
        runTest env = .done (.error .tarpaulin)) ∧
    (∀ env : RunEnv,
        (!env.alreadyCloned && !env.cloneOk) = false →
        (env.hasSetup && !env.setupLaunchOk) = false →
        env.spawnOk = true →
        waitLoop env.events 0 = .killedStalled →
        runTest env = .done (.error .stalled)) ∧
    (∀ env : RunEnv,
        (!env.alreadyCloned && !env.cloneOk) = false →
        (env.hasSetup && !env.setupLaunchOk) = false →
        env.spawnOk = true →
        waitLoop env.events 0 = .exitStatus false →
        runTest env = .done (.error .failed)) := by
  refine ⟨?_, ?_, ?_, ?_, ?_, ?_⟩
  · intro env h m
    unfold runTest
    split
    · simp
    · split
      · simp
      · simp only [h, Bool.not_true]
        split
        · simp_all
        · cases hw : waitLoop env.events 0 with
          | exitStatus s => cases s <;> simp
          | killedStalled => simp
          | waitFailed => simp
          | hung => simp
  · intro env h1 h2
    simp [runTest, h1, h2]
  · intro env h1 h2 h3
    simp [runTest, h1, h2, h3]
  · intro env h1 h2 h3 hw
    rw [runTest_wait env h1 h2 h3, hw]
  · intro env h1 h2 h3 hw
    rw [runTest_wait env h1 h2 h3, hw]
  · intro env h1 h2 h3 hw
    rw [runTest_wait env h1 h2 h3, hw]
    rfl

/-- Witness for C3 at concrete environments. -/
theorem c3_failure_containment_witness :
    runTest
      { alreadyCloned := false, cloneOk := false, hasSetup := false
        setupLaunchOk := true, spawnOk := true, events := [], foundLog := true }
      = .done (.error .git) ∧
    runTest
      { alreadyCloned := true, cloneOk := true, hasSetup := true
        setupLaunchOk := false, spawnOk := true, events := [], foundLog := true }
      = .done (.error .setup) ∧
    runTest
      { alreadyCloned := true, cloneOk := true, hasSetup := false
        setupLaunchOk := true, spawnOk := true, events := [.waitErr], foundLog := true }
      ≠ .panicked "Unable to spawn process" := by
  refine ⟨c3_failure_containment.2.1
      { alreadyCloned := false, cloneOk := false, hasSetup := false
        setupLaunchOk := true, spawnOk := true, events := [], foundLog := true }
      rfl rfl,
    c3_failure_containment.2.2.1
      { alreadyCloned := true, cloneOk := true, hasSetup := true
        setupLaunchOk := false, spawnOk := true, events := [], foundLog := true }
      (by rfl) rfl rfl,
    c3_failure_containment.1
      { alreadyCloned := true, cloneOk := true, hasSetup := false
        setupLaunchOk := true, spawnOk := true, events := [.waitErr], foundLog := true }
      (by rfl) _⟩

/-! ## Batch-loop lemmas shared by the orchestrator claims -/

theorem taterStep_shape (i : Nat) (p : ProjInfo) (st : TaterState) :
    st.passLedger <+: ((taterStep i p st).elim id id).passLedger ∧
    st.failLedger <+: ((taterStep i p st).elim id id).failLedger ∧
    ((taterStep i p st).elim id id).processed = st.processed ++ [i] := by
  unfold taterStep
  by_cases h1 : p.interrupt1 = true
  · simp [h1]
  · simp only [h1]
    by_cases h2 : p.dirExists = true
    · by_cases hp : (p.exitSuccess && p.foundLog) = true
      · by_cases h3 : p.interrupt2 = true
        · simp [h2, hp, h3]
        · simp [h2, hp, h3]
      · by_cases h3 : p.interrupt2 = true
        · simp [h2, hp, h3]
        · simp [h2, hp, h3]
    · simp [h2]

theorem taterStep_no_interrupt (i : Nat) (p : ProjInfo)
    (h1 : p.interrupt1 = false) (h2 : p.interrupt2 = false) (st : TaterState) :
    (taterStep i p st).isRight = true := by
  unfold taterStep
  by_cases hd : p.dirExists = true
  · by_cases hp : (p.exitSuccess && p.foundLog) = true
    · simp [h1, h2, hd, hp]
    · simp [h1, h2, hd, hp]
  · simp [h1, hd]

theorem taterLoop_ledgers_extend :
    ∀ (l : List (Nat × ProjInfo)) (st : TaterState),
      st.passLedger <+: (taterLoop l st).passLedger ∧
      st.failLedger <+: (taterLoop l st).failLedger := by
  intro l
  induction l with
  | nil => intro st; exact ⟨List.prefix_rfl, List.prefix_rfl⟩
  | cons hd tl ih =>
    intro st
    obtain ⟨i, p⟩ := hd
    have hs := taterStep_shape i p st
    cases h : taterStep i p st with
    | inl stop =>
      rw [h] at hs
      simpa [taterLoop, h] using ⟨hs.1, hs.2.1⟩
    | inr cont =>
      rw [h] at hs
      simp only [Sum.elim_inr, id] at hs
      have hc := ih cont
      refine ⟨?_, ?_⟩
      · simpa [taterLoop, h] using hs.1.trans hc.1
      · simpa [taterLoop, h] using hs.2.1.trans hc.2

theorem taterLoop_processed_no_interrupt :
    ∀ (l : List (Nat × ProjInfo)) (st : TaterState),
      (∀ x ∈ l, x.2.interrupt1 = false ∧ x.2.interrupt2 = false) →
      (taterLoop l st).processed = st.processed ++ l.map Prod.fst := by
  intro l
  induction l with
  | nil => intro st _; simp [taterLoop]
  | cons hd tl ih =>
    intro st hint
    obtain ⟨i, p⟩ := hd
    have hr := taterStep_no_interrupt i p
      (hint (i, p) (by simp)).1 (hint (i, p) (by simp)).2 st
    have hs := taterStep_shape i p st
    cases hc : taterStep i p st with
    | inl stop => rw [hc] at hr; simp at hr
    | inr cont =>
      rw [hc] at hs
      simp only [Sum.elim_inr, id] at hs
      have := ih cont (fun x hx => hint x (List.mem_cons_of_mem _ hx))
      simp [taterLoop, hc, this, hs.2.2]

theorem taterLoop_processed_mem :
    ∀ (l : List (Nat × ProjInfo)) (st : TaterState) (x : Nat),
      x ∈ (taterLoop l st).processed →
      x ∈ st.processed ∨ ∃ p, (x, p) ∈ l := by
  intro l
  induction l with
  | nil => intro st x hx; exact Or.inl hx
  | cons hd tl ih =>
    intro st x hx
    obtain ⟨i, p⟩ := hd
    have hs := taterStep_shape i p st
    cases h : taterStep i p st with
    | inl stop =>
      rw [h] at hs
      simp only [Sum.elim_inl, id] at hs
      rw [taterLoop, h] at hx
      rw [hs.2.2] at hx
      rcases List.mem_append.mp hx with hx | hx
      · exact Or.inl hx
      · simp only [List.mem_singleton] at hx
        exact Or.inr ⟨p, by simp [hx]⟩
    | inr cont =>
      rw [h] at hs
      simp only [Sum.elim_inr, id] at hs
      rw [taterLoop, h] at hx
      rcases ih cont x hx with hx | ⟨q, hq⟩
      · rw [hs.2.2] at hx
        rcases List.mem_append.mp hx with hx | hx
        · exact Or.inl hx
        · simp only [List.mem_singleton] at hx
          exact Or.inr ⟨p, by simp [hx]⟩
      · exact Or.inr ⟨q, List.mem_cons_of_mem _ hq⟩

/-! ## Claim C1: what decides a project's terminal outcome -/

/-- C1 counterexample: in `run_tater` a project whose coverage process
exits successfully but whose report artifact is not found is recorded as
a failure — the located-artifact flag gates the pass, contradicting the
claim that it never affects the outcome. -/
theorem c1_artifact_gates_pass_cx :
    runTater
      [{ dirExists := true, exitSuccess := true, foundLog := false
         interrupt1 := false, interrupt2 := false }] 0 [] [] =
      { passLedger := [], failLedger := [0], progress := none
        failures := 1, processed := [0] } := by decide

/-- C1 amended: in the supervisor `run_test` the terminal outcome is
`Ok` exactly when the observed exit status is a success, and the
located-artifact flag never affects it; but in the batch driver
`run_tater` a project is recorded as passed (pass-ledger append) if and
only if the exit status is a success AND the artifact was found. -/
theorem c1_terminal_outcome :
    (∀ (env : RunEnv) (s : Bool),
        (!env.alreadyCloned && !env.cloneOk) = false →
        (env.hasSetup && !env.setupLaunchOk) = false →
        env.spawnOk = true →
        waitLoop env.events 0 = .exitStatus s →
        (runTest env = .done (.ok ()) ↔ s = true)) ∧
    (∀ (env : RunEnv) (b : Bool),
        runTest { env with foundLog := b } = runTest env) ∧
    (∀ (i : Nat) (p : ProjInfo) (st : TaterState),
        p.interrupt1 = false → p.dirExists = true → p.interrupt2 = false →
        ((taterLoop [(i, p)] st).passLedger = st.passLedger ++ [i] ↔
          (p.exitSuccess && p.foundLog) = true)) := by
  refine ⟨?_, ?_, ?_⟩
  · intro env s h1 h2 h3 hw
    rw [runTest_wait env h1 h2 h3, hw]
    cases s <;> simp
  · intro env b
    rfl
  · intro i p st h1 h2 h3
    cases hp : p.exitSuccess && p.foundLog
    · simp [taterLoop, taterStep, h1, h2, h3, hp]
    · simp [taterLoop, taterStep, h1, h2, h3, hp]

/-- Witness for C1 at concrete inputs. -/
theorem c1_terminal_outcome_witness :
    (runTest
      { alreadyCloned := true, cloneOk := true, hasSetup := false
        setupLaunchOk := true, spawnOk := true, events := [.exited true]
        foundLog := false } = .done (.ok ()) ↔ true = true) ∧
    ((taterLoop [(0, { dirExists := true, exitSuccess := true, foundLog := true
                       interrupt1 := false, interrupt2 := false })]
        { passLedger := [], failLedger := [], progress := none
          failures := 0, processed := [] }).passLedger = [] ++ [0] ↔
      (true && true) = true) := by
  refine ⟨c1_terminal_outcome.1
      { alreadyCloned := true, cloneOk := true, hasSetup := false
        setupLaunchOk := true, spawnOk := true, events := [.exited true]
        foundLog := false } true (by rfl) (by rfl) (by rfl) (by rfl), ?_⟩
  exact c1_terminal_outcome.2.2 0
    { dirExists := true, exitSuccess := true, foundLog := true
      interrupt1 := false, interrupt2 := false }
    { passLedger := [], failLedger := [], progress := none
      failures := 0, processed := [] } rfl rfl rfl

/-! ## Claim C4: resume index and ledger handling -/

/-- C4: resuming from a persisted index `k` drives the loop over exactly
the enumerated list positions `k` onward in order (no interruptions), and
never touches a position below `k`; for `k > 0` both ledger files are
opened for append so their existing contents survive as a prefix, while
for `k = 0` both are opened fresh and any previous contents are
irrelevant. -/
theorem c4_resume_semantics :
    (∀ (projs : List ProjInfo) (k : Nat) (eP eF : List Nat), 0 < k →
        eP <+: (runTater projs k eP eF).passLedger ∧
        eF <+: (runTater projs k eP eF).failLedger) ∧
    (∀ (projs : List ProjInfo) (eP eF : List Nat),
        runTater projs 0 eP eF = runTater projs 0 [] []) ∧
    (∀ (projs : List ProjInfo) (k : Nat) (eP eF : List Nat),
        (∀ p ∈ projs, p.interrupt1 = false ∧ p.interrupt2 = false) →
        (runTater projs k eP eF).processed = (List.range projs.length).drop k) ∧
    (∀ (projs : List ProjInfo) (k : Nat) (eP eF : List Nat) (i : Nat),
        i ∈ (runTater projs k eP eF).processed → k ≤ i) := by
  refine ⟨?_, ?_, ?_, ?_⟩
  · intro projs k eP eF hk
    have hne : ¬ k = 0 := by omega
    simp only [runTater, statusLedgerInit, if_neg hne]
    exact taterLoop_ledgers_extend (List.drop k projs.enum) ⟨eP, eF, none, 0, []⟩
  · intro projs eP eF
    simp [runTater, statusLedgerInit]
  · intro projs k eP eF hint
    have h := taterLoop_processed_no_interrupt ((projs.enum).drop k)
      { passLedger := statusLedgerInit eP k
        failLedger := statusLedgerInit eF k
        progress := none, failures := 0, processed := [] }
      (fun x hx => hint x.2 (by
        have : x ∈ projs.enum := List.mem_of_mem_drop hx
        exact List.snd_mem_of_mem_enum this))
    rw [runTater, h]
    simp [List.map_drop, List.enum_map_fst]
  · intro projs k eP eF i hi
    have h := taterLoop_processed_mem ((projs.enum).drop k)
      { passLedger := statusLedgerInit eP k
        failLedger := statusLedgerInit eF k
        progress := none, failures := 0, processed := [] } i hi
    rcases h with h | ⟨p, hp⟩
    · simp at h
    · obtain ⟨j, hj, hget⟩ := List.getElem_of_mem hp
      have hlen : (List.drop k projs.enum).length = projs.enum.length - k :=
        List.length_drop k projs.enum
      have henum : projs.enum.length = projs.length := List.enum_length
      rw [List.getElem_drop] at hget
      have hlt : k + j < projs.enum.length := by omega
      have hval := List.getElem_enum projs (k + j) hlt
      rw [hval] at hget
      have : i = k + j := by
        have := congrArg Prod.fst hget
        simpa using this.symm
      omega

/-- Witness for C4 at concrete inputs. -/
theorem c4_resume_semantics_witness :
    ([5] <+: (runTater
        [{ dirExists := true, exitSuccess := true, foundLog := true
           interrupt1 := false, interrupt2 := false }] 1 [5] [7]).passLedger) ∧
    ((runTater
        [{ dirExists := true, exitSuccess := true, foundLog := true
           interrupt1 := false, interrupt2 := false },
         { dirExists := true, exitSuccess := false, foundLog := true
           interrupt1 := false, interrupt2 := false }] 1 [] []).processed =
      (List.range 2).drop 1) ∧
    (1 ≤ 1) := by
  refine ⟨(c4_resume_semantics.1 _ 1 [5] [7] (by omega)).1, ?_, ?_⟩
  · exact c4_resume_semantics.2.2.1
      [{ dirExists := true, exitSuccess := true, foundLog := true
         interrupt1 := false, interrupt2 := false },
       { dirExists := true, exitSuccess := false, foundLog := true
         interrupt1 := false, interrupt2 := false }] 1 [] [] (by decide)
  · exact c4_resume_semantics.2.2.2
      [{ dirExists := true, exitSuccess := true, foundLog := true
         interrupt1 := false, interrupt2 := false },
       { dirExists := true, exitSuccess := false, foundLog := true
         interrupt1 := false, interrupt2 := false }] 1 [] [] 1 (by decide)

/-! ## Claim C5: the inline-script fallback of `read_workflow` -/

/-- C5 counterexample: a workflow whose single job has one step with no
action reference and the inline script `cargo test` — the extraction
engine succeeds on that script, yet the job scan still returns the
not-found error and never builds an invocation from it. -/
theorem c5_inline_fallback_cx :
    readWorkflowJobs none
      [{ steps := [{ uses := [], withParams := [], run := "cargo test".toList }]
         matrix := { elements := [], includeList := [] } }] = .notFound ∧
    extractTarpaulinCommands "cargo test".toList ≠ [] := by
  exact ⟨rfl, by decide⟩

/-- C5 amended: when no job has a coverage-action step and no job's first
build-tool-action step wraps a `test` command, the scan returns not-found
for every workflow — the inline scripts are fed through the extraction
engine for logging only, and no invocation is ever produced from them. -/
theorem c5_fallback_logs_only :
    ∀ (wd : Option (List Char)) (jobs : List Job),
      (∀ j ∈ jobs,
        j.steps.find? (fun st => "actions-rs/tarpaulin".toList.isPrefixOf st.uses)
          = none ∧
        (∀ st, j.steps.find? (fun st => "actions-rs/cargo".toList.isPrefixOf st.uses)
            = some st →
          (alookup "command".toList st.withParams).bind YamlVal.asStr
            ≠ some "test".toList)) →
      readWorkflowJobs wd jobs = .notFound := by
  intro wd jobs
  induction jobs with
  | nil => intro _; rfl
  | cons j tl ih =>
    intro h
    have hj := h j (by simp)
    have htl := ih (fun x hx => h x (List.mem_cons_of_mem _ hx))
    cases hc : j.steps.find? (fun st => "actions-rs/cargo".toList.isPrefixOf st.uses) with
    | none =>
      simp only [readWorkflowJobs, hj.1, hc]
      exact htl
    | some st =>
      simp only [readWorkflowJobs, hj.1, hc]
      rw [if_neg (hj.2 st hc)]
      exact htl

/-- Witness for C5 at a concrete workflow. -/
theorem c5_fallback_logs_only_witness :
    readWorkflowJobs none
      [{ steps := [{ uses := "actions/checkout@v2".toList, withParams := []
                     run := "cargo test --verbose".toList }]
         matrix := { elements := [], includeList := [] } }] = .notFound := by
  refine c5_fallback_logs_only none _ ?_
  intro j hj
  simp only [List.mem_singleton] at hj
  subst hj
  exact ⟨rfl, fun st h => Option.noConfusion h⟩

/-! ## Matrix-resolver lemmas shared by C6 and C7 -/

/-- The string keys of an include-entry mapping. -/
def keysOf (entries : List (YamlVal × YamlVal)) : List (List Char) :=
  entries.filterMap (fun kv => kv.1.asStr)

/-- The non-axis string bindings of an include-entry mapping, in entry
order. -/
def othersOf (axis : List Char) (entries : List (YamlVal × YamlVal)) :
    List (List Char × YamlVal) :=
  entries.filterMap (fun kv =>
    match kv.1.asStr with
    | some s => if s = axis then none else some (s, kv.2)
    | none => none)

/-- A sequence value kept as is, any other value promoted to a singleton
list. -/
def promoteVal (v : YamlVal) : List YamlVal :=
  match v.asSequence with
  | some s => s
  | none => [v]

/-- Modelled from the spec's words, for comparison with the code: for
each include entry containing the axis key, take that key's value (a
scalar promoted to a singleton list) as the candidate data and every
other string key as a precondition; entries lacking the key are skipped. -/
def specIncludeResult (axis : List Char) (v : YamlVal) : Option MatrixValue :=
  match v.asMapping with
  | none => none
  | some entries =>
    match entries.find? (fun kv => decide (kv.1.asStr = some axis)) with
    | none => none
    | some kv => some ⟨promoteVal kv.2, othersOf axis entries⟩

/-- Does this include entry contain the axis key? -/
def entryHasKey (axis : List Char) (v : YamlVal) : Bool :=
  match v.asMapping with
  | some entries => entries.any (fun kv => decide (kv.1.asStr = some axis))
  | none => false

theorem insertA_fresh (k : List Char) (v : YamlVal) :
    ∀ pc : List (List Char × YamlVal), (∀ kv ∈ pc, kv.1 ≠ k) →
      insertA k v pc = pc ++ [(k, v)] := by
  intro pc
  induction pc with
  | nil => intro _; rfl
  | cons hd tl ih =>
    intro h
    obtain ⟨k', v'⟩ := hd
    have hne : k' ≠ k := h (k', v') (by simp)
    simp only [insertA, if_neg hne, List.cons_append, List.cons.injEq, true_and]
    exact ih (fun kv hkv => h kv (List.mem_cons_of_mem _ hkv))

theorem find?_axis_none (axis : List Char) :
    ∀ entries : List (YamlVal × YamlVal), axis ∉ keysOf entries →
      entries.find? (fun kv => decide (kv.1.asStr = some axis)) = none := by
  intro entries
  induction entries with
  | nil => intro _; rfl
  | cons kv rest ih =>
    intro h
    cases hk : kv.1.asStr with
    | none =>
      have h' : axis ∉ keysOf rest := by
        simpa [keysOf, List.filterMap_cons, hk] using h
      simp [List.find?_cons, hk, ih h']
    | some s =>
      have hmem : axis ∉ s :: keysOf rest := by
        simpa [keysOf, List.filterMap_cons, hk] using h
      have hsa : s ≠ axis := fun hh => hmem (by simp [hh])
      simp [List.find?_cons, hk, hsa, ih (fun hh => hmem (by simp [hh]))]

theorem foldl_entryStep_char (axis : List Char) :
    ∀ (entries : List (YamlVal × YamlVal)) (cur : Option (List YamlVal))
      (pc : List (List Char × YamlVal)),
      (keysOf entries).Nodup →
      (∀ s ∈ keysOf entries, ∀ kv ∈ pc, kv.1 ≠ s) →
      entries.foldl (entryStep axis) (cur, pc) =
        ((match entries.find? (fun kv => decide (kv.1.asStr = some axis)) with
          | some kv => some (promoteVal kv.2)
          | none => cur),
         pc ++ othersOf axis entries) := by
  intro entries
  induction entries with
  | nil => intro cur pc _ _; simp [othersOf]
  | cons kv rest ih =>
    intro cur pc hnd hdis
    cases hk : kv.1.asStr with
    | none =>
      have hstep : entryStep axis (cur, pc) kv = (cur, pc) := by
        simp [entryStep, hk]
      have hkeys : keysOf (kv :: rest) = keysOf rest := by
        simp [keysOf, List.filterMap_cons, hk]
      have hnd' : (keysOf rest).Nodup := hkeys ▸ hnd
      have hdis' : ∀ s ∈ keysOf rest, ∀ kv' ∈ pc, kv'.1 ≠ s := by
        intro s hs
        exact hdis s (hkeys ▸ hs)
      rw [List.foldl_cons, hstep, ih cur pc hnd' hdis']
      simp [List.find?_cons, hk, othersOf, List.filterMap_cons]
    | some s =>
      have hkeys : keysOf (kv :: rest) = s :: keysOf rest := by
        simp [keysOf, List.filterMap_cons, hk]
      have hnotin : s ∉ keysOf rest := by
        rw [hkeys] at hnd
        exact (List.nodup_cons.mp hnd).1
      have hnd' : (keysOf rest).Nodup := by
        rw [hkeys] at hnd
        exact (List.nodup_cons.mp hnd).2
      by_cases hsa : s = axis
      · rw [hsa] at hk hnotin
        have hstep : entryStep axis (cur, pc) kv = (some (promoteVal kv.2), pc) := by
          simp [entryStep, hk, promoteVal]
        have hdis' : ∀ t ∈ keysOf rest, ∀ kv' ∈ pc, kv'.1 ≠ t := by
          intro t ht
          exact hdis t (by rw [hkeys, hsa]; exact List.mem_cons_of_mem _ ht)
        rw [List.foldl_cons, hstep, ih _ pc hnd' hdis']
        rw [find?_axis_none axis rest hnotin]
        simp [List.find?_cons, hk, othersOf, List.filterMap_cons]
      · have hstep : entryStep axis (cur, pc) kv = (cur, insertA s kv.2 pc) := by
          simp [entryStep, hk, hsa]
        have hsmem : s ∈ keysOf (kv :: rest) := by rw [hkeys]; simp
        have hfresh : ∀ kv' ∈ pc, kv'.1 ≠ s := hdis s hsmem
        have hdis' : ∀ t ∈ keysOf rest, ∀ kv' ∈ pc ++ [(s, kv.2)], kv'.1 ≠ t := by
          intro t ht kv' hkv'
          rcases List.mem_append.mp hkv' with hkv' | hkv'
          · exact hdis t (by rw [hkeys]; exact List.mem_cons_of_mem _ ht) kv' hkv'
          · simp only [List.mem_singleton] at hkv'
            subst hkv'
            intro hh
            have hst : s = t := hh
            exact hnotin (by rw [hst]; exact ht)
        rw [List.foldl_cons, hstep, insertA_fresh s kv.2 pc hfresh,
          ih cur (pc ++ [(s, kv.2)]) hnd' hdis']
        simp [List.find?_cons, hk, hsa, othersOf, List.filterMap_cons]

theorem entryMatrixValue_eq (axis : List Char)
    (entries : List (YamlVal × YamlVal)) (hnd : (keysOf entries).Nodup) :
    entryMatrixValue axis entries =
      match entries.find? (fun kv => decide (kv.1.asStr = some axis)) with
      | none => none
      | some kv => some ⟨promoteVal kv.2, othersOf axis entries⟩ := by
  unfold entryMatrixValue
  rw [foldl_entryStep_char axis entries none [] hnd (by intro s _ kv h; cases h)]
  cases entries.find? (fun kv => decide (kv.1.asStr = some axis)) <;> simp

theorem bind_entryMatrixValue_eq (axis : List Char) (v : YamlVal)
    (hnd : ∀ entries, v.asMapping = some entries → (keysOf entries).Nodup) :
    v.asMapping.bind (entryMatrixValue axis) = specIncludeResult axis v := by
  cases v with
  | map entries =>
    have h := entryMatrixValue_eq axis entries (hnd entries rfl)
    simp only [YamlVal.asMapping, Option.some_bind, specIncludeResult]
    exact h
  | str s => rfl
  | num n => rfl
  | bool b => rfl
  | seq l => rfl
  | null => rfl

theorem specIncludeResult_isSome (axis : List Char) (v : YamlVal) :
    (specIncludeResult axis v).isSome = entryHasKey axis v := by
  cases v with
  | map entries =>
    simp only [specIncludeResult, YamlVal.asMapping, entryHasKey]
    have : (entries.find? (fun kv => decide (kv.1.asStr = some axis))).isSome =
        entries.any (fun kv => decide (kv.1.asStr = some axis)) := by
      induction entries with
      | nil => rfl
      | cons a t ih =>
        rw [List.find?_cons]
        cases hp : (fun kv : YamlVal × YamlVal =>
            decide (kv.1.asStr = some axis)) a <;> simp [hp, ih]
    rw [← this]
    cases entries.find? (fun kv => decide (kv.1.asStr = some axis)) <;> simp
  | str s => rfl
  | num n => rfl
  | bool b => rfl
  | seq l => rfl
  | null => rfl

theorem alookup_othersOf (axis : List Char) :
    ∀ entries : List (YamlVal × YamlVal),
      alookup axis (othersOf axis entries) = none := by
  intro entries
  induction entries with
  | nil => rfl
  | cons kv rest ih =>
    cases hk : kv.1.asStr with
    | none => simpa [othersOf, List.filterMap_cons, hk] using ih
    | some s =>
      by_cases hsa : s = axis
      · simpa [othersOf, List.filterMap_cons, hk, hsa] using ih
      · simpa [othersOf, List.filterMap_cons, hk, hsa, alookup] using ih

theorem splitOnChar_no_sep (sep : Char) :
    ∀ s : List Char, sep ∉ s → splitOnChar sep s = [s] := by
  intro s
  induction s with
  | nil => intro _; rfl
  | cons c rest ih =>
    intro h
    have hc : ¬ c = sep := fun hh => h (by simp [hh])
    have hrest : sep ∉ rest := fun hh => h (List.mem_cons_of_mem _ hh)
    simp [splitOnChar, hc, ih hrest]

theorem splitOnChar_matrix_dot (axis : List Char) :
    splitOnChar '.' ("matrix.".toList ++ axis) =
      "matrix".toList :: splitOnChar '.' axis := rfl

/-! ## Claim C6: include-entry axis resolution -/

/-- C6 counterexample: with an empty include list (hence zero entries
containing the axis key) and the axis absent from the declared axes, the
resolver returns not-applicable rather than a list of exactly zero
results. -/
theorem c6_empty_include_cx :
    (({ steps := []
        matrix := { elements := [("os".toList, [YamlVal.str "linux".toList])]
                    includeList := [] } } : Job).getPossibleMatrixValues
      "matrix.features".toList) = none ∧
    (none : Option (List MatrixValue)) ≠ some [] := by
  exact ⟨rfl, by simp⟩

/-- C6 amended: provided the include list is nonempty (an empty include
list gives not-applicable) and each entry's string keys are distinct,
resolving an axis not declared directly yields exactly one result per
include entry containing the axis key — never merged — whose candidate
data is that entry's value for the key (scalar promoted to a singleton
list) and whose preconditions are exactly the entry's other string keys
and values; entries lacking the key are skipped, and no result's
preconditions bind the axis being resolved. -/
theorem c6_include_axis_resolution :
    ∀ (j : Job) (axis : List Char),
      '.' ∉ axis →
      alookup axis j.matrix.elements = none →
      j.matrix.includeList ≠ [] →
      (∀ v ∈ j.matrix.includeList, ∀ entries, v.asMapping = some entries →
        (keysOf entries).Nodup) →
      j.getPossibleMatrixValues ("matrix.".toList ++ axis) =
        some (j.matrix.includeList.filterMap (specIncludeResult axis)) ∧
      (j.matrix.includeList.filterMap (specIncludeResult axis)).length =
        j.matrix.includeList.countP (entryHasKey axis) ∧
      (∀ mv ∈ j.matrix.includeList.filterMap (specIncludeResult axis),
        alookup axis mv.preconditions = none) := by
  intro j axis hdot hlook hne hnd
  refine ⟨?_, ?_, ?_⟩
  · have hsplit : splitOnChar '.' ("matrix.".toList ++ axis) =
        ["matrix".toList, axis] := by
      rw [splitOnChar_matrix_dot, splitOnChar_no_sep '.' axis hdot]
    simp only [Job.getPossibleMatrixValues, hsplit]
    rw [if_neg (not_or.mpr ⟨by simp only [List.length_cons, List.length_nil]; omega,
      fun hh => hh rfl⟩)]
    simp only [List.getD_cons_succ, List.getD_cons_zero]
    rw [hlook]
    rw [if_neg (by rw [List.isEmpty_eq_false.mpr hne]; exact Bool.false_ne_true)]
    refine congrArg some (List.filterMap_congr ?_)
    intro v hv
    exact bind_entryMatrixValue_eq axis v (fun entries hm => hnd v hv entries hm)
  · rw [List.length_filterMap_eq_countP]
    induction j.matrix.includeList with
    | nil => rfl
    | cons a t ih =>
      rw [List.countP_cons, List.countP_cons, specIncludeResult_isSome axis a, ih]
  · intro mv hmv
    obtain ⟨v, hv, hsv⟩ := List.mem_filterMap.mp hmv
    cases hm : v.asMapping with
    | none =>
      simp only [specIncludeResult, hm] at hsv
      exact Option.noConfusion hsv
    | some entries =>
      simp only [specIncludeResult, hm] at hsv
      cases hf : entries.find? (fun kv => decide (kv.1.asStr = some axis)) with
      | none => rw [hf] at hsv; cases hsv
      | some kv =>
        rw [hf] at hsv
        have : mv = ⟨promoteVal kv.2, othersOf axis entries⟩ := by
          injection hsv with h; exact h.symm
        rw [this]
        exact alookup_othersOf axis entries

/-- Witness for C6 at a concrete include table (the `features` axis of
the hyper-style workflow). -/
theorem c6_include_axis_resolution_witness :
    (({ steps := []
        matrix :=
          { elements := [("rust".toList,
              [YamlVal.str "stable".toList, YamlVal.str "beta".toList])]
            includeList :=
              [YamlVal.map [(YamlVal.str "rust".toList, YamlVal.str "stable".toList),
                 (YamlVal.str "features".toList,
                  YamlVal.str "--features full".toList)],
               YamlVal.map [(YamlVal.str "rust".toList, YamlVal.str "beta".toList)]] } }
      : Job).getPossibleMatrixValues "matrix.features".toList) =
      some [⟨[YamlVal.str "--features full".toList],
             [("rust".toList, YamlVal.str "stable".toList)]⟩] := by
  have h := c6_include_axis_resolution
    { steps := []
      matrix :=
        { elements := [("rust".toList,
            [YamlVal.str "stable".toList, YamlVal.str "beta".toList])]
          includeList :=
            [YamlVal.map [(YamlVal.str "rust".toList, YamlVal.str "stable".toList),
               (YamlVal.str "features".toList,
                YamlVal.str "--features full".toList)],
             YamlVal.map [(YamlVal.str "rust".toList, YamlVal.str "beta".toList)]] } }
    "features".toList (by decide) rfl (by simp)
    (by
      intro v hv entries hm
      simp only [List.mem_cons, List.mem_singleton] at hv
      rcases hv with hv | hv | hv
      · subst hv
        injection hm with hm
        subst hm
        decide
      · subst hv
        injection hm with hm
        subst hm
        decide
      · cases hv)
  exact h.1.trans (by rfl)

theorem foldl_entryStep_fst (axis : List Char) :
    ∀ (entries : List (YamlVal × YamlVal)) (cur : Option (List YamlVal))
      (pc : List (List Char × YamlVal)),
      (∀ kv ∈ entries, kv.1.asStr ≠ some axis) →
      (entries.foldl (entryStep axis) (cur, pc)).1 = cur := by
  intro entries
  induction entries with
  | nil => intro cur pc _; rfl
  | cons kv rest ih =>
    intro cur pc h
    have hk := h kv (by simp)
    rw [List.foldl_cons]
    have hstep : ∃ pc', entryStep axis (cur, pc) kv = (cur, pc') := by
      unfold entryStep
      rw [if_neg hk]
      cases hks : kv.1.asStr with
      | some s => exact ⟨insertA s kv.2 pc, rfl⟩
      | none => exact ⟨pc, rfl⟩
    obtain ⟨pc', hstep⟩ := hstep
    rw [hstep]
    exact ih cur pc' (fun x hx => h x (List.mem_cons_of_mem _ hx))

theorem entryMatrixValue_of_no_axis (axis : List Char)
    (entries : List (YamlVal × YamlVal))
    (hf : entries.find? (fun kv => decide (kv.1.asStr = some axis)) = none) :
    entryMatrixValue axis entries = none := by
  have h : ∀ kv ∈ entries, kv.1.asStr ≠ some axis := by
    intro kv hkv
    have := List.find?_eq_none.mp hf kv hkv
    simpa using this
  have h1 : (entries.foldl (entryStep axis) (none, [])).1 = none :=
    foldl_entryStep_fst axis entries none [] h
  simp only [entryMatrixValue]
  rw [h1]
  rfl

/-! ## Claim C7: not-applicable versus applicable-empty -/

/-- C7 counterexample: an axis declared neither directly nor in any
include entry, with an empty include list, resolves to not-applicable
(`none`), not to an applicable empty result set. -/
theorem c7_axis_nowhere_cx :
    (({ steps := []
        matrix := { elements := [("rust".toList, [YamlVal.str "stable".toList])]
                    includeList := [] } } : Job).getPossibleMatrixValues
      "matrix.foo".toList) = none := rfl

/-- C7 amended: a reference with fewer than two segments or a root other
than `matrix` resolves to not-applicable; an axis declared nowhere
resolves to applicable-empty when at least one include entry exists, but
to not-applicable when the include list is empty. -/
theorem c7_reference_resolution :
    (∀ (j : Job) (var : List Char),
        (splitOnChar '.' var).length < 2 ∨
          (splitOnChar '.' var).headI ≠ "matrix".toList →
        j.getPossibleMatrixValues var = none) ∧
    (∀ (j : Job) (axis : List Char),
        '.' ∉ axis →
        alookup axis j.matrix.elements = none →
        j.matrix.includeList ≠ [] →
        (∀ v ∈ j.matrix.includeList, entryHasKey axis v = false) →
        j.getPossibleMatrixValues ("matrix.".toList ++ axis) = some []) ∧
    (∀ (j : Job) (axis : List Char),
        '.' ∉ axis →
        alookup axis j.matrix.elements = none →
        j.matrix.includeList = [] →
        j.getPossibleMatrixValues ("matrix.".toList ++ axis) = none) := by
  refine ⟨?_, ?_, ?_⟩
  · intro j var h
    simp only [Job.getPossibleMatrixValues]
    rw [if_pos h]
  · intro j axis hdot hlook hne hnone
    have hsplit : splitOnChar '.' ("matrix.".toList ++ axis) =
        ["matrix".toList, axis] := by
      rw [splitOnChar_matrix_dot, splitOnChar_no_sep '.' axis hdot]
    simp only [Job.getPossibleMatrixValues, hsplit]
    rw [if_neg (not_or.mpr ⟨by simp only [List.length_cons, List.length_nil]; omega,
      fun hh => hh rfl⟩)]
    simp only [List.getD_cons_succ, List.getD_cons_zero]
    rw [hlook]
    rw [if_neg (by rw [List.isEmpty_eq_false.mpr hne]; exact Bool.false_ne_true)]
    refine congrArg some ?_
    rw [List.filterMap_eq_nil_iff]
    intro v hv
    cases hm : v.asMapping with
    | none => rfl
    | some entries =>
      rw [Option.some_bind]
      apply entryMatrixValue_of_no_axis
      have h1 := hnone v hv
      simp only [entryHasKey, hm] at h1
      refine List.find?_eq_none.mpr ?_
      intro x hx
      have := List.any_eq_false.mp h1 x hx
      simpa using this
  · intro j axis hdot hlook hemp
    have hsplit : splitOnChar '.' ("matrix.".toList ++ axis) =
        ["matrix".toList, axis] := by
      rw [splitOnChar_matrix_dot, splitOnChar_no_sep '.' axis hdot]
    simp only [Job.getPossibleMatrixValues, hsplit]
    rw [if_neg (not_or.mpr ⟨by simp only [List.length_cons, List.length_nil]; omega,
      fun hh => hh rfl⟩)]
    simp only [List.getD_cons_succ, List.getD_cons_zero]
    rw [hlook, hemp]
    rfl

/-- Witness for C7 at concrete references. -/
theorem c7_reference_resolution_witness :
    (({ steps := []
        matrix := { elements := [("os".toList, [YamlVal.str "linux".toList])]
                    includeList := [YamlVal.map
                      [(YamlVal.str "os".toList, YamlVal.str "mac".toList)]] } }
      : Job).getPossibleMatrixValues "maatrix.foo".toList = none) ∧
    (({ steps := []
        matrix := { elements := [("os".toList, [YamlVal.str "linux".toList])]
                    includeList := [YamlVal.map
                      [(YamlVal.str "os".toList, YamlVal.str "mac".toList)]] } }
      : Job).getPossibleMatrixValues "matrix.foo".toList = some []) := by
  constructor
  · exact c7_reference_resolution.1 _ "maatrix.foo".toList (by right; decide)
  · exact c7_reference_resolution.2.1 _ "foo".toList (by decide) rfl (by simp)
      (by
        intro v hv
        simp only [List.mem_singleton] at hv
        subst hv
        decide)

/-! ## Re-extraction lemmas for claim C9 -/

theorem startsCargoWsTest_append {s : List Char} (t : List Char)
    (h : startsCargoWsTest s = true) : startsCargoWsTest (s ++ t) = true := by
  simp only [startsCargoWsTest, Bool.and_eq_true, List.isPrefixOf_iff_prefix,
    Bool.not_eq_true', List.isEmpty_eq_false] at h ⊢
  obtain ⟨h1, h2, h3⟩ := h
  have hlen : 5 ≤ s.length := h1.length_le
  have e1 : (s ++ t).drop 5 = s.drop 5 ++ t := List.drop_append_of_le_length hlen
  set r := s.drop 5 with hrdef
  set w := r.takeWhile isWsChar with hwdef
  obtain ⟨rr, hrr⟩ := List.takeWhile_prefix (p := isWsChar) (l := r)
  have hdropw : r.drop w.length = rr := by
    rw [← hrr, List.drop_left]
  have htest_rr : testKw <+: rr := hdropw ▸ h3
  have hheadq : rr.head? = some 't' := by
    obtain ⟨r3, hr3⟩ := htest_rr
    rw [← hr3]
    rfl
  obtain ⟨r2, hr2⟩ : ∃ r2, rr = 't' :: r2 := by
    cases hd : rr with
    | nil => rw [hd] at hheadq; cases hheadq
    | cons a r2 =>
      rw [hd] at hheadq
      injection hheadq with ha
      exact ⟨r2, by rw [ha]⟩
  have hwall : ∀ x ∈ w, isWsChar x = true := fun x hx => List.mem_takeWhile_imp hx
  have e2 : (r ++ t).takeWhile isWsChar = w := by
    conv_lhs => rw [← hrr, hr2, List.append_assoc, List.cons_append]
    rw [List.takeWhile_append_of_pos hwall]
    simp [List.takeWhile_cons, show isWsChar 't' = false from by decide]
  have e3 : (r ++ t).drop w.length = rr ++ t := by
    rw [← hrr, List.append_assoc, List.drop_left]
  refine ⟨h1.trans (List.prefix_append s t), ?_, ?_⟩
  · rw [e1, e2]
    exact h2
  · rw [e1, e2, e3]
    exact (hdropw ▸ h3).trans (List.prefix_append rr t)

theorem hasCargoWsTest_append {s : List Char} (t : List Char)
    (h : hasCargoWsTest s = true) : hasCargoWsTest (s ++ t) = true := by
  induction s with
  | nil => simp [hasCargoWsTest] at h
  | cons c rest ih =>
    simp only [hasCargoWsTest, Bool.or_eq_true] at h
    rcases h with h | h
    · rw [List.cons_append]
      simp only [hasCargoWsTest, Bool.or_eq_true]
      left
      have := startsCargoWsTest_append t h
      rwa [List.cons_append] at this
    · rw [List.cons_append]
      simp only [hasCargoWsTest, Bool.or_eq_true]
      right
      exact ih h

theorem hasCargoWsTest_dropFinalCr {c : List Char}
    (h : hasCargoWsTest c = false) : hasCargoWsTest (dropFinalCr c) = false := by
  unfold dropFinalCr
  split
  · next hcond =>
    cases hdl : hasCargoWsTest c.dropLast with
    | false => rfl
    | true =>
      exfalso
      have hne : c ≠ [] := by
        intro he
        rw [he] at hcond
        cases hcond
      have hx := hasCargoWsTest_append [c.getLast hne] hdl
      rw [List.dropLast_concat_getLast hne] at hx
      rw [h] at hx
      cases hx
  · exact h

theorem matchLen_startsCargoWsTest {s : List Char} {n : Nat}
    (h : matchLen s = some n) : startsCargoWsTest s = true := by
  simp only [matchLen] at h
  split_ifs at h with h1 h2 h3 h4
  all_goals first
  | exact Option.noConfusion h
  | (simp only [startsCargoWsTest, Bool.and_eq_true, Bool.not_eq_true',
       List.isEmpty_eq_false, List.isPrefixOf_iff_prefix] at h1 h3 ⊢
     refine ⟨h1, ?_, h3⟩
     intro hnil
     rw [hnil] at h2
     exact h2 rfl)

theorem findMatchesF_of_no_occurrence :
    ∀ (fuel : Nat) (s : List Char), hasCargoWsTest s = false →
      findMatchesF fuel s = [] := by
  intro fuel
  induction fuel with
  | zero => intro s _; cases s <;> rfl
  | succ fuel ih =>
    intro s h
    cases s with
    | nil => rfl
    | cons c rest =>
      rw [hasCargoWsTest, Bool.or_eq_false_iff] at h
      cases hm : matchLen (c :: rest) with
      | some n =>
        have := matchLen_startsCargoWsTest hm
        rw [h.1] at this
        cases this
      | none =>
        simp only [findMatchesF, hm]
        exact ih rest h.2

theorem mem_findMatchesF_subset :
    ∀ (fuel : Nat) (s m : List Char), m ∈ findMatchesF fuel s →
      ∀ ch ∈ m, ch ∈ s := by
  intro fuel
  induction fuel with
  | zero => intro s m hm; simp [findMatchesF] at hm
  | succ fuel ih =>
    intro s m hm ch hch
    cases s with
    | nil => simp [findMatchesF] at hm
    | cons c rest =>
      cases hml : matchLen (c :: rest) with
      | some n =>
        simp only [findMatchesF, hml, List.mem_cons] at hm
        rcases hm with hm | hm
        · subst hm
          exact List.mem_of_mem_take hch
        · exact List.mem_of_mem_drop (ih _ m hm ch hch)
      | none =>
        simp only [findMatchesF, hml] at hm
        exact List.mem_cons_of_mem c (ih rest m hm ch hch)

theorem splitNl_no_newline :
    ∀ (s part : List Char), part ∈ splitNl s → '\n' ∉ part := by
  intro s
  induction s with
  | nil =>
    intro part hp
    simp only [splitNl, List.mem_singleton] at hp
    subst hp
    simp
  | cons c rest ih =>
    intro part hp
    by_cases hc : c = '\n'
    · simp only [splitNl, if_pos hc, List.mem_cons] at hp
      rcases hp with hp | hp
      · subst hp; simp
      · exact ih part hp
    · simp only [splitNl, if_neg hc] at hp
      cases hsp : splitNl rest with
      | nil =>
        rw [hsp] at hp
        simp only [List.mem_singleton] at hp
        subst hp
        intro hmem
        rcases List.mem_cons.mp hmem with hmem | hmem
        · exact hc hmem.symm
        · cases hmem
      | cons hd tl =>
        rw [hsp] at hp
        rcases List.mem_cons.mp hp with hp | hp
        · subst hp
          intro hmem
          rcases List.mem_cons.mp hmem with hmem | hmem
          · exact hc hmem.symm
          · exact ih hd (by rw [hsp]; exact List.mem_cons_self hd tl) hmem
        · exact ih part (by rw [hsp]; exact List.mem_cons_of_mem _ hp)

theorem replaceCargoTestF_preserves_no_newline :
    ∀ (fuel : Nat) (s : List Char), '\n' ∉ s →
      '\n' ∉ replaceCargoTestF fuel s := by
  intro fuel
  induction fuel with
  | zero => intro s h; cases s with | nil => exact h | cons c rest => exact h
  | succ fuel ih =>
    intro s h
    cases s with
    | nil => simp [replaceCargoTestF]
    | cons c rest =>
      by_cases hp : cargoTest.isPrefixOf (c :: rest) = true
      · simp only [replaceCargoTestF, if_pos hp]
        intro hmem
        rcases List.mem_append.mp hmem with hmem | hmem
        · exact absurd hmem (by decide)
        · exact ih _ (fun hc => h (List.mem_of_mem_drop hc)) hmem
      · simp only [replaceCargoTestF, if_neg hp]
        intro hmem
        rcases List.mem_cons.mp hmem with hmem | hmem
        · exact h (by rw [hmem]; exact List.mem_cons_self c rest)
        · exact ih rest (fun hc => h (List.mem_cons_of_mem _ hc)) hmem

theorem mem_extract_no_newline (input c : List Char)
    (hc : c ∈ extractTarpaulinCommands input) : '\n' ∉ c := by
  unfold extractTarpaulinCommands at hc
  rw [List.mem_flatten] at hc
  obtain ⟨l, hl, hcl⟩ := hc
  rw [List.mem_map] at hl
  obtain ⟨line, hline, rfl⟩ := hl
  rw [List.mem_map] at hcl
  obtain ⟨m, hm, rfl⟩ := hcl
  have hnlline : ('\n' : Char) ∉ line := by
    unfold rustLines at hline
    split at hline
    · cases hline
    · rw [List.mem_map] at hline
      obtain ⟨part, hpart, rfl⟩ := hline
      have hmem : part ∈ splitNl (fixLines input) := by
        revert hpart
        split
        · exact fun hpart => List.dropLast_subset _ hpart
        · exact fun hpart => hpart
      have := splitNl_no_newline (fixLines input) part hmem
      unfold dropFinalCr
      split
      · exact fun hx => this (List.mem_of_mem_dropLast hx)
      · exact this
  have hsubset : ∀ ch ∈ m, ch ∈ line :=
    mem_findMatchesF_subset line.length line m hm
  exact replaceCargoTestF_preserves_no_newline m.length m
    (fun hch => hnlline (hsubset '\n' hch))

theorem lastNlIdx_some_mem :
    ∀ (w : List Char) (p : Nat), lastNlIdx w = some p → '\n' ∈ w := by
  intro w
  induction w with
  | nil => intro p h; cases h
  | cons c rest ih =>
    intro p h
    rw [lastNlIdx] at h
    cases hr : lastNlIdx rest with
    | some i => exact List.mem_cons_of_mem _ (ih i hr)
    | none =>
      simp only [hr] at h
      by_cases hc : c = '\n'
      · rw [hc]; exact List.mem_cons_self _ _
      · rw [if_neg hc] at h
        exact Option.noConfusion h

theorem fixLinesF_id :
    ∀ (fuel : Nat) (s : List Char), '\n' ∉ s → fixLinesF fuel s = s := by
  intro fuel
  induction fuel with
  | zero => intro s _; cases s <;> rfl
  | succ fuel ih =>
    intro s h
    cases s with
    | nil => rfl
    | cons c rest =>
      by_cases hb : c = '\\'
      · cases hn : lastNlIdx (rest.takeWhile isWsChar) with
        | some p =>
          exfalso
          have := lastNlIdx_some_mem _ p hn
          exact h (List.mem_cons_of_mem _ ((List.takeWhile_sublist _).subset this))
        | none =>
          simp only [fixLinesF, if_pos hb, hn]
          rw [ih rest (fun hx => h (List.mem_cons_of_mem _ hx))]
      · simp only [fixLinesF, if_neg hb]
        rw [ih rest (fun hx => h (List.mem_cons_of_mem _ hx))]

theorem splitNl_no_nl_eq {s : List Char} (h : '\n' ∉ s) : splitNl s = [s] := by
  induction s with
  | nil => rfl
  | cons c rest ih =>
    have hc : ¬ c = '\n' := fun hh => h (by rw [hh]; exact List.mem_cons_self _ _)
    simp only [splitNl, if_neg hc]
    rw [ih (fun hx => h (List.mem_cons_of_mem _ hx))]

theorem extract_of_no_occurrence {c : List Char} (hnl : '\n' ∉ c)
    (h : hasCargoWsTest c = false) : extractTarpaulinCommands c = [] := by
  unfold extractTarpaulinCommands
  have hfix : fixLines c = c := fixLinesF_id c.length c hnl
  rw [hfix]
  by_cases hc : c = []
  · subst hc; rfl
  · simp only [rustLines, if_neg hc]
    rw [splitNl_no_nl_eq hnl]
    rw [if_neg (by simpa using hc)]
    have hfind : findMatches (dropFinalCr c) = [] :=
      findMatchesF_of_no_occurrence _ _ (hasCargoWsTest_dropFinalCr h)
    simp [hfind]

/-- C9 amended: re-running extraction on a rewritten command yields no
matches provided the command no longer contains the test keyword preceded
by the build-tool name and whitespace; the single-space substitution
removes exactly such occurrences written with one space, so e.g.
`"cargo  test"` (two spaces) survives rewriting and still matches. -/
theorem c9_rewritten_no_matches :
    ∀ (input c : List Char), c ∈ extractTarpaulinCommands input →
      hasCargoWsTest c = false →
      extractTarpaulinCommands c = [] := by
  intro input c hc h
  exact extract_of_no_occurrence (mem_extract_no_newline input c hc) h

/-- Witness for C9 at a concrete rewritten command. -/
theorem c9_rewritten_no_matches_witness :
    "cargo tarpaulin --all-features".toList ∈
      extractTarpaulinCommands "cargo test --all-features".toList ∧
    hasCargoWsTest "cargo tarpaulin --all-features".toList = false ∧
    extractTarpaulinCommands "cargo tarpaulin --all-features".toList = [] := by
  refine ⟨by decide, by decide,
    c9_rewritten_no_matches "cargo test --all-features".toList
      "cargo tarpaulin --all-features".toList (by decide) (by decide)⟩

end Tater
